import Mathlib

/-!
Verification of the download-and-archive subsystem of the `hhutil` repository
(`hhutil/io.py`) against its natural-language specification.

The Python source is shallowly embedded: strings are `List Char`, byte streams
are `List Nat`, the filesystem around one operation is a small association
list, and the blocking network call of `download_file` is a parameter that is
either a transport failure (with the bytes streamed so far) or a successful
body together with the optional `Content-Disposition` header.  Recursive
directory walks use an explicit fuel argument bounded by the node count of
the tree, so every definition is structurally recursive and evaluates inside
the kernel.
-/

deriving instance DecidableEq for Except

namespace HHutil

/-! ### Generic helpers over character lists -/

/-- Consume the literal `k` from the front of `s`; `some` of the remainder on
success, `none` if `s` does not start with `k`. -/
def litChomp : List Char → List Char → Option (List Char)
  | [], s => some s
  | _ :: _, [] => none
  | k :: ks, c :: cs => if c = k then litChomp ks cs else none

/-- Model of Python `s.find(key)` followed by `s[p + len(key):]`: the remainder
of `s` after the first occurrence of `key`, or `none` when `key` does not occur. -/
def findAfter (key : List Char) : List Char → Option (List Char)
  | [] => litChomp key []
  | c :: cs =>
    match litChomp key (c :: cs) with
    | some rest => some rest
    | none => findAfter key cs

/-- Lexicographic comparison of character lists by code point: how Python
compares strings when sorting a directory listing. -/
def charListLt : List Char → List Char → Bool
  | [], [] => false
  | [], _ :: _ => true
  | _ :: _, [] => false
  | c :: cs, d :: ds => if c < d then true else if d < c then false else charListLt cs ds

/-- String comparison by code points. -/
def strLt (a b : String) : Bool := charListLt a.data b.data

/-- Insert a `(name, value)` pair into a list sorted by name (ascending). -/
def insertPair {α : Type} (x : String × α) : List (String × α) → List (String × α)
  | [] => [x]
  | y :: ys => if strLt x.1 y.1 then x :: y :: ys else y :: insertPair x ys

/-- Insertion sort of `(name, value)` pairs by name: the model of Python
`sorted(...)` applied to the (uniquely named) entries of a directory listing. -/
def sortPairs {α : Type} : List (String × α) → List (String × α)
  | [] => []
  | x :: xs => insertPair x (sortPairs xs)

/-! ### The filename parser, `_parse_response_filename` (io.py lines 188-198) -/

/-- Errors the Python parser can raise: `rep.headers['Content-Disposition']`
raises `KeyError` when the header is absent, and `filename[0]` raises
`IndexError` when the remainder after `filename=` is empty. -/
inductive HeaderErr where
  | keyError
  | indexError
deriving DecidableEq

/-- The token searched for in the `Content-Disposition` header. -/
def filenameKey : List Char := "filename=".data

/-- Strip one surrounding pair of double quotes from a nonempty remainder, as
`filename[1:-1]` does when `filename[0] == '"' and filename[-1] == '"'`. -/
def stripPair : List Char → List Char
  | [] => []
  | c :: cs => if c = '"' ∧ (c :: cs).getLastD ' ' = '"' then cs.dropLast else c :: cs

/-- Model of `_parse_response_filename`.  The argument is the value of the
`Content-Disposition` header, `none` when the response carries no such header
(in which case the dictionary access raises `KeyError`). -/
def parse_response_filename (hdr : Option (List Char)) :
    Except HeaderErr (Option (List Char)) :=
  match hdr with
  | none => .error .keyError
  | some s =>
    match findAfter filenameKey s with
    | none => .ok none
    | some [] => .error .indexError
    | some (c :: cs) => .ok (some (stripPair (c :: cs)))

/-! ### The deterministic zip entry writer, `_zip_add_file` (io.py lines 151-162) -/

/-- The `zipfile.ZIP_DEFLATED` constant. -/
def ZIP_DEFLATED : Nat := 8

/-- The `stat.S_IFREG` constant (regular-file type bits). -/
def S_IFREG : Nat := 0o100000

/-- A source file as seen by the archiver: its bytes, the result of the
`os.access(path, os.X_OK)` executability check, whether opening it for reading
succeeds, its full permission bits and its modification time. -/
structure SrcFile where
  content : List Nat
  exec : Bool
  readable : Bool
  mode : Nat
  mtime : Nat
deriving DecidableEq

/-- One record handed to the zip container writer: the archive-relative name
and the per-entry metadata and data that `writestr` receives.
`compressLevel = none` models Python `compresslevel=None` (library default). -/
structure ZipEntry where
  name : String
  dateTime : Nat × Nat × Nat × Nat × Nat × Nat
  externalAttr : Nat
  compressType : Nat
  compressLevel : Option Nat
  content : List Nat
deriving DecidableEq

/-- The deterministic entry for given bytes and executability, exactly as
`_zip_add_file` builds it: fixed timestamp `(2019, 1, 1, 0, 0, 0)`, permission
word `0o555`/`0o444` by the executability predicate, `S_IFREG` type bits
shifted 16, `ZIP_DEFLATED` at level 9. -/
def mkDetEntry (zip_path : String) (content : List Nat) (exec : Bool) : ZipEntry :=
  { name := zip_path
    dateTime := (2019, 1, 1, 0, 0, 0)
    externalAttr := (S_IFREG ||| (if exec then 0o555 else 0o444)) <<< 16
    compressType := ZIP_DEFLATED
    compressLevel := some 9
    content := content }

/-- Model of `_zip_add_file` applied to a readable source file. -/
def zip_add_file_entry (zip_path : String) (f : SrcFile) : ZipEntry :=
  mkDetEntry zip_path f.content f.exec

/-! ### The sorted directory walker, `_zip_add_directory` (io.py lines 141-148) -/

mutual
/-- A filesystem node: a regular file, or a directory given by its listing
(name/node pairs in the order `os.listdir` would yield them) and its own
modification time.  `FSListing` is the listing; directory listings of a real
filesystem have distinct names, but nothing below depends on that. -/
inductive FSNode where
  | file (f : SrcFile)
  | dir (children : FSListing) (mtime : Nat)
inductive FSListing where
  | nil
  | cons (name : String) (node : FSNode) (rest : FSListing)
end

mutual
/-- Number of nodes in a tree (used as a recursion-depth bound below). -/
def nodeSize : FSNode → Nat
  | .file _ => 1
  | .dir ch _ => 1 + listingSize ch
def listingSize : FSListing → Nat
  | .nil => 0
  | .cons _ t rest => nodeSize t + listingSize rest
end

/-- A listing as a list of name/node pairs, in `os.listdir` order. -/
def toPairs : FSListing → List (String × FSNode)
  | .nil => []
  | .cons n t rest => (n, t) :: toPairs rest

/-- An absolute path, as the list of its segments; `fmt_path` has already been
applied, so no `~` or relative parts remain. -/
abbrev PathA := List String

/-- Total node count of a list of name/node pairs. -/
def pairsSize : List (String × FSNode) → Nat
  | [] => 0
  | (_, t) :: rest => nodeSize t + pairsSize rest

/-- The spec's `FileAccessError` taxonomy entry: a source path that does not
exist (`FileNotFoundError` from `os.stat`) or cannot be read
(`PermissionError` from `open`). -/
inductive FileAccessError where
  | fileNotFound (p : PathA)
  | permissionDenied (p : PathA)
deriving DecidableEq

/-- Fuel-indexed body of `_zip_add_directory`, iterating over one (already
sorted) directory listing: a file becomes a deterministic entry at
`zip_path/item`, unless opening it raises `PermissionError`
(`f.readable = false`), which aborts the walk exactly as the exception
propagates in the source; a subdirectory recurses into its sorted listing at
`path/item` and `zip_path/item`.  Fuel only bounds the recursion; the wrapper
supplies enough.  On success the returned list is the sequence of entries
written, in write order. -/
def walkList : Nat → List (String × FSNode) → PathA → String →
    Except FileAccessError (List ZipEntry)
  | 0, _, _, _ => .ok []
  | _ + 1, [], _, _ => .ok []
  | fuel + 1, (item, .file f) :: rest, path, zip_path =>
    if f.readable then
      match walkList fuel rest path zip_path with
      | .error e => .error e
      | .ok es => .ok (zip_add_file_entry (zip_path ++ "/" ++ item) f :: es)
    else .error (.permissionDenied (path ++ [item]))
  | fuel + 1, (item, .dir ch _) :: rest, path, zip_path =>
    match walkList fuel (sortPairs (toPairs ch)) (path ++ [item])
        (zip_path ++ "/" ++ item) with
    | .error e => .error e
    | .ok es =>
      match walkList fuel rest path zip_path with
      | .error e => .error e
      | .ok es2 => .ok (es ++ es2)

/-- Model of `_zip_add_directory`, taking the listing of the directory at
`path` and the archive-relative prefix `zip_path`: sort the listing, then
walk it. -/
def zip_add_directory (children : FSListing) (path : PathA) (zip_path : String) :
    Except FileAccessError (List ZipEntry) :=
  walkList (listingSize children + 1) (sortPairs (toPairs children)) path zip_path

/-- The canonical content of a tree: file bytes, executable bits and
readability, with directory listings in sorted order.  Two trees have equal
`canonNode` exactly when they hold byte-identical files with identical
executable bits and identical readability, whatever their modification times
and listing (traversal) order. -/
inductive CNode where
  | file (content : List Nat) (exec : Bool) (readable : Bool)
  | dir (children : List (String × CNode))

/-- Fuel-indexed canonicalization of a tree. -/
def canonGo : Nat → FSNode → CNode
  | 0, _ => .file [] false false
  | _ + 1, .file f => .file f.content f.exec f.readable
  | fuel + 1, .dir ch _ =>
    .dir (sortPairs ((toPairs ch).map fun p => (p.1, canonGo fuel p.2)))

/-- Canonical view of a tree (mtimes erased, listings sorted). -/
def canonNode (t : FSNode) : CNode := canonGo (nodeSize t) t

/-- Canonical view of a directory listing. -/
def canonChildren (ch : FSListing) : List (String × CNode) :=
  sortPairs ((toPairs ch).map fun p => (p.1, canonNode p.2))

/-- Fuel-indexed walk over a canonical listing, mirroring `walkList` step for
step (same entries, same abort on an unreadable file). -/
def cwalkList : Nat → List (String × CNode) → PathA → String →
    Except FileAccessError (List ZipEntry)
  | 0, _, _, _ => .ok []
  | _ + 1, [], _, _ => .ok []
  | fuel + 1, (item, .file content exec readable) :: rest, path, zip_path =>
    if readable then
      match cwalkList fuel rest path zip_path with
      | .error e => .error e
      | .ok es => .ok (mkDetEntry (zip_path ++ "/" ++ item) content exec :: es)
    else .error (.permissionDenied (path ++ [item]))
  | fuel + 1, (item, .dir cl) :: rest, path, zip_path =>
    match cwalkList fuel cl (path ++ [item]) (zip_path ++ "/" ++ item) with
    | .error e => .error e
    | .ok es =>
      match cwalkList fuel rest path zip_path with
      | .error e => .error e
      | .ok es2 => .ok (es ++ es2)

/-! ### `zip_files` (io.py lines 165-173) over a flat disk of source paths -/

/-- Python `Path(fp).name`: the final path segment. -/
def baseName (p : PathA) : String := p.getLastD ""

/-- The files visible to one `zip_files` call, by absolute path. -/
abbrev Disk := List (PathA × SrcFile)

/-- Look a path up on the disk. -/
def lookupDisk : Disk → PathA → Option SrcFile
  | [], _ => none
  | (q, f) :: rest, p => if q = p then some f else lookupDisk rest p

/-- One deterministic-mode step of `zip_files`: `_zip_add_file(zf, str(fp), fp.name)`.
A missing source fails at `ZipInfo.from_file`, an unreadable one at `open`. -/
def zip_add_file_disk (disk : Disk) (p : PathA) : Except FileAccessError ZipEntry :=
  match lookupDisk disk p with
  | none => .error (.fileNotFound p)
  | some f =>
    if f.readable then .ok (zip_add_file_entry (baseName p) f)
    else .error (.permissionDenied p)

/-- The entry `zf.write(str(fp), fp.name)` produces in non-deterministic mode:
name is still the basename, but timestamp and permission bits come from the
real `stat` results (civil-time conversion of the mtime is abstracted as an
injective function of it). -/
def zip_write_entry (p : PathA) (f : SrcFile) : ZipEntry :=
  { name := baseName p
    dateTime := (f.mtime, 0, 0, 0, 0, 0)
    externalAttr := (S_IFREG ||| f.mode) <<< 16
    compressType := ZIP_DEFLATED
    compressLevel := none
    content := f.content }

/-- One non-deterministic-mode step of `zip_files`. -/
def zip_write_disk (disk : Disk) (p : PathA) : Except FileAccessError ZipEntry :=
  match lookupDisk disk p with
  | none => .error (.fileNotFound p)
  | some f =>
    if f.readable then .ok (zip_write_entry p f) else .error (.permissionDenied p)

/-- The loop of `zip_files`: entries accumulate in input order; the first
failing source aborts the loop, leaving the entries written so far. -/
def zip_files_go (disk : Disk) (deterministic : Bool) :
    List PathA → List ZipEntry → Option FileAccessError × List ZipEntry
  | [], acc => (none, acc)
  | p :: rest, acc =>
    match (if deterministic then zip_add_file_disk disk p else zip_write_disk disk p) with
    | .error e => (some e, acc)
    | .ok entry => zip_files_go disk deterministic rest (acc ++ [entry])

/-- Model of the external `zipfile` container serializer: the bytes of one
local entry record are a deterministic function of the record handed to
`writestr` (name, timestamp, attributes, compression settings, data). -/
def encodeEntry (e : ZipEntry) : List Nat :=
  (e.name.length :: e.name.data.map Char.toNat)
    ++ [e.dateTime.1, e.dateTime.2.1, e.dateTime.2.2.1, e.dateTime.2.2.2.1,
        e.dateTime.2.2.2.2.1, e.dateTime.2.2.2.2.2]
    ++ [e.externalAttr, e.compressType,
        (match e.compressLevel with | none => 0 | some n => n + 1),
        e.content.length]
    ++ e.content

/-- Bytes of the destination file while the archive is open: the local records
written so far, with no central directory (the state a crash leaves behind). -/
def zipLocalBytes (es : List ZipEntry) : List Nat := es.flatMap encodeEntry

/-- Bytes of a completed archive after `zf.close()`: local records followed by
the central directory, again a pure function of the entry records. -/
def zipOutputBytes (es : List ZipEntry) : List Nat :=
  zipLocalBytes es ++ 255 :: es.flatMap (fun e => 254 :: encodeEntry e)

/-- Model of `zip_files(fps, dst, deterministic)`.  First component: the error
it raises, if any.  Second component: the contents of the file at the
destination path after the call — `ZipFile(dst, "w")` creates (or truncates)
that file before any source is read, so a file is present there afterwards
even when the call fails. -/
def zip_files (disk : Disk) (fps : List PathA) (deterministic : Bool) :
    Option FileAccessError × Option (List Nat) :=
  match zip_files_go disk deterministic fps [] with
  | (none, es) => (none, some (zipOutputBytes es))
  | (some e, es) => (some e, some (zipLocalBytes es))

/-- Entries produced by the deterministic steps that succeed, in order; on a
prefix of readable, present sources this is exactly what the loop wrote. -/
def detEntries (disk : Disk) (fps : List PathA) : List ZipEntry :=
  fps.filterMap fun q =>
    match zip_add_file_disk disk q with
    | .ok e => some e
    | .error _ => none

/-- Byte-identical input files: same contents, same executability, same
readability; mode bits and mtimes free to differ. -/
def srcEquiv (f g : SrcFile) : Prop :=
  f.content = g.content ∧ f.exec = g.exec ∧ f.readable = g.readable

/-- Lift `srcEquiv` to lookup results: present on both disks and equivalent,
or absent from both. -/
def srcOptEquiv : Option SrcFile → Option SrcFile → Prop
  | none, none => True
  | some f, some g => srcEquiv f g
  | _, _ => False

/-! ### The downloader, `download_file` (io.py lines 201-227) -/

/-- The files of the destination directory, by name within that directory. -/
abbrev Fs := List (String × List Nat)

/-- Look a name up in the directory. -/
def fsLookup : Fs → String → Option (List Nat)
  | [], _ => none
  | (m, v) :: rest, n => if m = n then some v else fsLookup rest n

/-- Remove a name from the directory (`os.remove`). -/
def fsErase : Fs → String → Fs
  | [], _ => []
  | (m, v) :: rest, n => if m = n then fsErase rest n else (m, v) :: fsErase rest n

/-- Create or overwrite a file in the directory. -/
def fsInsert (fs : Fs) (n : String) (v : List Nat) : Fs := (n, v) :: fsErase fs n

/-- Outcome of the blocking `requests.get` streaming call: a transport failure
after some bytes were already streamed into the temporary file, or a complete
body together with the optional `Content-Disposition` header value. -/
inductive NetOutcome where
  | fail (written : List Nat)
  | ok (body : List Nat) (contentDisposition : Option (List Char))

/-- Errors `download_file` propagates: the transport failure, or an error
raised while resolving the filename from the response header. -/
inductive DLError where
  | networkError
  | headerErr (e : HeaderErr)
deriving DecidableEq

/-- What `download_file` returns on success: the published path
`dst_dir / name`, or — when the destination was a directory and no filename
was resolved — the original directory path with nothing published. -/
inductive DLReturn where
  | published (name : String)
  | dirNoName
deriving DecidableEq

/-- Result of one `download_file` call: its return value or propagated error,
the destination directory afterwards, and whether the temporary file handle
was closed (the `finally` block closes it on every path). -/
structure DLResult where
  result : Except DLError DLReturn
  fs : Fs
  tempClosed : Bool

/-- Model of `download_file`.  `dstIsDir` is the `dst.exists() and dst.is_dir()`
test; `dstName` is `dst.name` when the destination is a file path; `tmp` is the
fresh name `NamedTemporaryFile(delete=False, dir=dst_dir)` picks; `net` is the
outcome of the streaming request.  Mirrors the try/finally of the source: the
temporary file is created first; on failure the `finally` closes and removes
it; on success with a resolved filename it is renamed to `dst_dir/filename`;
on success with no resolved filename the code falls through (`pass`) and the
`finally` then removes the temporary file. -/
def download_file (fs0 : Fs) (dstIsDir : Bool) (dstName : String) (tmp : String)
    (net : NetOutcome) : DLResult :=
  let filename0 : Option String := if dstIsDir then none else some dstName
  let fs1 := fsInsert fs0 tmp []
  match net with
  | .fail written =>
    { result := .error .networkError
      fs := fsErase (fsInsert fs1 tmp written) tmp
      tempClosed := true }
  | .ok body hdr =>
    let fs2 := fsInsert fs1 tmp body
    match filename0 with
    | some name =>
      { result := .ok (.published name)
        fs := fsInsert (fsErase fs2 tmp) name body
        tempClosed := true }
    | none =>
      match parse_response_filename hdr with
      | .error e =>
        { result := .error (.headerErr e)
          fs := fsErase fs2 tmp
          tempClosed := true }
      | .ok (some nm) =>
        { result := .ok (.published (String.mk nm))
          fs := fsInsert (fsErase fs2 tmp) (String.mk nm) body
          tempClosed := true }
      | .ok none =>
        { result := .ok .dirNoName
          fs := fsErase fs2 tmp
          tempClosed := true }

/-! ### The GitHub private-release resolver (io.py lines 230-237, URL part) -/

/-- Character class `[a-zA-Z0-9]` of the owner group. -/
def ghOwnerClass (c : Char) : Bool := c.isAlpha || c.isDigit

/-- Character class `[a-z0-9A-Z-_]` of the repo group. -/
def ghRepoClass (c : Char) : Bool := c.isAlpha || c.isDigit || c = '-' || c = '_'

/-- Character class `[0-9.]` of the tag group. -/
def ghTagClass (c : Char) : Bool := c.isDigit || c = '.'

/-- The regex wildcard `.`: any character but a newline.  The `.` in the
pattern's `github.com` is unescaped, so it is this wildcard, and the trailing
`(.*)` group stops at a newline. -/
def anyNotNL (c : Char) : Bool := if c = '\n' then false else true

/-- The authenticated release-metadata query URL the function builds:
`https://api.github.com/repos/{owner}/{repo}/releases/tags/{tag}`. -/
def ghQueryUrl (owner repo tag : List Char) : List Char :=
  "https://api.github.com/repos/".data ++ owner ++ "/".data ++ repo
    ++ "/releases/tags/".data ++ tag

/-- The URL-parsing stage of `download_github_private_assert`: match the fixed
pattern `https://github.com/([a-zA-Z0-9]+)/([a-z0-9A-Z-_]+)/releases/download/([0-9.]+)/(.*)`
with `re.match` semantics (anchored at the start only, `.` never matches a
newline, a failed match trips the `assert`), and build the query URL.  On
success: `(owner, repo, tag, file, query_url)`. -/
def download_github_private_assert_resolve (url : List Char) :
    Except Unit (List Char × List Char × List Char × List Char × List Char) :=
  match litChomp ("https://github".data) url with
  | none => .error ()
  | some r0 =>
    match r0 with
    | [] => .error ()
    | w :: r1 =>
      if w = '\n' then .error () else
      match litChomp ("com/".data) r1 with
      | none => .error ()
      | some r2 =>
        let owner := r2.takeWhile ghOwnerClass
        let r3 := r2.dropWhile ghOwnerClass
        if owner = [] then .error () else
        match r3 with
        | [] => .error ()
        | c :: r4 =>
          if c = '/' then
            let repo := r4.takeWhile ghRepoClass
            let r5 := r4.dropWhile ghRepoClass
            if repo = [] then .error () else
            match litChomp ("/releases/download/".data) r5 with
            | none => .error ()
            | some r6 =>
              let tag := r6.takeWhile ghTagClass
              let r7 := r6.dropWhile ghTagClass
              if tag = [] then .error () else
              match r7 with
              | [] => .error ()
              | c' :: r8 =>
                if c' = '/' then
                  .ok (owner, repo, tag, r8.takeWhile anyNotNL,
                       ghQueryUrl owner repo tag)
                else .error ()
          else .error ()

/-- Split a character list on `'/'` into segments. -/
def splitSlash : List Char → List (List Char)
  | [] => [[]]
  | c :: cs =>
    match splitSlash cs with
    | [] => [[]]
    | seg :: rest => if c = '/' then [] :: seg :: rest else (c :: seg) :: rest

/-- Following the claim's words, not the code: a URL of the fixed shape
`https://<host>/<owner>/<repo>/releases/download/<tag>/<file>` with all six
variable segments nonempty.  Used to compare the claim's shape with the
pattern the code actually enforces. -/
def matchesFixedShape (url : List Char) : Bool :=
  match litChomp ("https://".data) url with
  | none => false
  | some r =>
    match splitSlash r with
    | [host, owner, repo, seg1, seg2, tag, file] =>
      !host.isEmpty && !owner.isEmpty && !repo.isEmpty
        && (seg1 == "releases".data) && (seg2 == "download".data)
        && !tag.isEmpty && !file.isEmpty
    | _ => false

/-! ### The OneDrive share-link resolver, `get_onedrive_download_url` (io.py 252-259) -/

/-- Character class `[0-9a-zA-Z-_]` of the share id and query parameter. -/
def odClass (c : Char) : Bool := c.isDigit || c.isAlpha || c = '-' || c = '_'

/-- The direct content-fetch URL built from a share id. -/
def odContentUrl (id : List Char) : List Char :=
  "https://api.onedrive.com/v1.0/shares/s!".data ++ id ++ "/root/content".data

/-- Model of `get_onedrive_download_url`: match
`https://1drv\.ms/u/s!([0-9a-zA-Z-_]{28})\?e=[0-9a-zA-Z-_]{6}` with `re.match`
semantics (anchored at the start only) and return the content-fetch URL; a
failed match raises (`ValueError`, the spec's `InvalidShareURLError`).
A pure function: no network call. -/
def get_onedrive_download_url (share_url : List Char) : Except Unit (List Char) :=
  match litChomp ("https://1drv.ms/u/s!".data) share_url with
  | none => .error ()
  | some r1 =>
    let id := r1.take 28
    let r2 := r1.drop 28
    if id.length = 28 ∧ id.all odClass then
      match litChomp ("?e=".data) r2 with
      | none => .error ()
      | some r3 =>
        if (r3.take 6).length = 6 ∧ (r3.take 6).all odClass then
          .ok (odContentUrl id)
        else .error ()
    else .error ()


/-! ### Lemmas about the character-list helpers -/

theorem litChomp_self (k r : List Char) : litChomp k (k ++ r) = some r := by
  induction k with
  | nil => rfl
  | cons c cs ih => simp [litChomp, ih]

theorem litChomp_some (k : List Char) :
    ∀ s r : List Char, litChomp k s = some r → s = k ++ r := by
  induction k with
  | nil => intro s r h; simp [litChomp] at h; simp [h]
  | cons c cs ih =>
    intro s r h
    cases s with
    | nil => simp [litChomp] at h
    | cons d ds =>
      rw [litChomp] at h
      by_cases hd : d = c
      · rw [if_pos hd] at h
        have := ih ds r h
        simp [hd, this]
      · rw [if_neg hd] at h
        cases h

theorem findAfter_some (key : List Char) :
    ∀ s r : List Char, findAfter key s = some r → ∃ pre, s = pre ++ key ++ r := by
  intro s
  induction s with
  | nil =>
    intro r h
    rw [findAfter] at h
    have := litChomp_some key [] r h
    exact ⟨[], by simp [← this]⟩
  | cons c cs ih =>
    intro r h
    rw [findAfter] at h
    cases hm : litChomp key (c :: cs) with
    | some rest =>
      rw [hm] at h
      cases h
      exact ⟨[], by simpa using litChomp_some _ _ _ hm⟩
    | none =>
      rw [hm] at h
      obtain ⟨pre, hp⟩ := ih r h
      exact ⟨c :: pre, by simp [hp]⟩

theorem findAfter_cons (key : List Char) (c : Char) (cs : List Char) :
    findAfter key (c :: cs) =
      match litChomp key (c :: cs) with
      | some rest => some rest
      | none => findAfter key cs := by
  rw [findAfter]

theorem findAfter_of_split (key rest : List Char) :
    ∀ pre, ∃ r, findAfter key (pre ++ key ++ rest) = some r := by
  intro pre
  induction pre with
  | nil =>
    refine ⟨rest, ?_⟩
    simp only [List.nil_append]
    cases hk : key ++ rest with
    | nil =>
      have hkey : key = [] := by cases key <;> simp_all
      have hrest : rest = [] := by rw [hkey] at hk; simpa using hk
      subst hkey
      subst hrest
      rfl
    | cons c cs =>
      rw [findAfter_cons]
      rw [← hk]
      rw [litChomp_self]
  | cons c pre' ih =>
    obtain ⟨r, hr⟩ := ih
    simp only [List.cons_append]
    rw [findAfter_cons]
    cases hm : litChomp key (c :: (pre' ++ key ++ rest)) with
    | some u => exact ⟨u, rfl⟩
    | none => exact ⟨r, hr⟩

theorem findAfter_first (key : List Char) :
    ∀ s r : List Char, findAfter key s = some r →
      ∃ pre, s = pre ++ key ++ r
        ∧ ∀ pre' rest', s = pre' ++ key ++ rest' → pre.length ≤ pre'.length := by
  intro s
  induction s with
  | nil =>
    intro r h
    rw [findAfter] at h
    have := litChomp_some key [] r h
    exact ⟨[], by simp [← this], fun pre' rest' _ => Nat.zero_le _⟩
  | cons c cs ih =>
    intro r h
    rw [findAfter_cons] at h
    cases hm : litChomp key (c :: cs) with
    | some rest =>
      rw [hm] at h
      cases h
      exact ⟨[], by simpa using litChomp_some _ _ _ hm, fun pre' rest' _ => Nat.zero_le _⟩
    | none =>
      rw [hm] at h
      obtain ⟨pre, hp, hmin⟩ := ih r h
      refine ⟨c :: pre, by simp [hp], ?_⟩
      intro pre' rest' hs
      cases pre' with
      | nil =>
        rw [List.nil_append] at hs
        have hcontra : litChomp key (c :: cs) = some rest' := by
          rw [hs]
          exact litChomp_self key rest'
        rw [hm] at hcontra
        cases hcontra
      | cons c' pre'' =>
        rw [List.cons_append, List.cons_append] at hs
        have hcs : cs = pre'' ++ key ++ rest' := by
          injection hs with hc htail
        have := hmin pre'' rest' hcs
        simp only [List.length_cons]
        omega

theorem rest_eq_of_first (key s pre rest : List Char)
    (hs : s = pre ++ key ++ rest)
    (hmin : ∀ pre' rest', s = pre' ++ key ++ rest' → pre.length ≤ pre'.length) :
    findAfter key s = some rest := by
  obtain ⟨r, hr⟩ := findAfter_of_split key rest pre
  rw [← hs] at hr
  obtain ⟨pre0, hp0, hmin0⟩ := findAfter_first key s r hr
  have hlen : pre.length = pre0.length :=
    Nat.le_antisymm (hmin pre0 r hp0) (hmin0 pre rest hs)
  have heq : pre ++ key ++ rest = pre0 ++ key ++ r := hs.symm.trans hp0
  have hlen2 : (pre ++ key).length = (pre0 ++ key).length := by
    simp [List.length_append, hlen]
  have hrr := (List.append_inj heq hlen2).2
  rw [hr, hrr]

theorem first_from_scan (key s : List Char) (n : Nat)
    (h : ((List.range n).all fun i => (litChomp key (s.drop i)).isNone) = true) :
    ∀ pre' rest', s = pre' ++ key ++ rest' → n ≤ pre'.length := by
  intro pre' rest' hs
  by_contra hlt
  push_neg at hlt
  have hdrop : s.drop pre'.length = key ++ rest' := by
    subst hs
    rw [List.append_assoc, List.drop_left]
  have hall := (List.all_eq_true.mp h) pre'.length (List.mem_range.mpr hlt)
  rw [hdrop, litChomp_self] at hall
  simp at hall

theorem takeWhile_munch {α : Type} (p : α → Bool) :
    ∀ (xs : List α) (c : α) (ys : List α), xs.all p = true → p c = false →
      (xs ++ c :: ys).takeWhile p = xs ∧ (xs ++ c :: ys).dropWhile p = c :: ys := by
  intro xs
  induction xs with
  | nil =>
    intro c ys _ hc
    constructor <;> simp [List.takeWhile_cons, List.dropWhile_cons, hc]
  | cons x xs' ih =>
    intro c ys hall hc
    rw [List.all_cons, Bool.and_eq_true] at hall
    obtain ⟨h1, h2⟩ := ih c ys hall.2 hc
    constructor <;>
      simp [List.takeWhile_cons, List.dropWhile_cons, hall.1, h1, h2]

theorem dropWhile_head_false {α : Type} (p : α → Bool) :
    ∀ (s : List α) (c : α) (t : List α), s.dropWhile p = c :: t → p c = false := by
  intro s
  induction s with
  | nil => intro c t h; simp [List.dropWhile] at h
  | cons a s' ih =>
    intro c t h
    rw [List.dropWhile_cons] at h
    by_cases ha : p a
    · rw [if_pos ha] at h; exact ih c t h
    · rw [if_neg ha] at h
      cases h
      exact Bool.of_not_eq_true ha

/-! ### Lemmas about the directory association list -/

theorem fsLookup_fsErase (fs : Fs) (n p : String) :
    fsLookup (fsErase fs n) p = if p = n then none else fsLookup fs p := by
  induction fs with
  | nil => simp [fsErase, fsLookup]
  | cons q rest ih =>
    obtain ⟨m, v⟩ := q
    by_cases hm : m = n
    · rw [fsErase, if_pos hm, ih, fsLookup]
      by_cases hp : p = n
      · simp [hp]
      · have : ¬ m = p := by rw [hm]; intro hc; exact hp hc.symm
        simp [hp, this]
    · rw [fsErase, if_neg hm, fsLookup, fsLookup]
      by_cases hmp : m = p
      · have : ¬ p = n := by rw [← hmp]; intro hc; exact hm hc
        simp [hmp, this]
      · simp [hmp, ih]

theorem fsLookup_fsInsert (fs : Fs) (n : String) (v : List Nat) (p : String) :
    fsLookup (fsInsert fs n v) p = if p = n then some v else fsLookup fs p := by
  rw [fsInsert, fsLookup]
  by_cases hp : p = n
  · simp [hp]
  · have : ¬ n = p := fun hc => hp hc.symm
    simp [hp, this, fsLookup_fsErase]

theorem no_split_of_findAfter_none (key s : List Char) (h : findAfter key s = none) :
    ¬ ∃ pre rest, s = pre ++ key ++ rest := by
  rintro ⟨pre, rest, hs⟩
  obtain ⟨r, hr⟩ := findAfter_of_split key rest pre
  rw [← hs, h] at hr
  cases hr

/-! ### Claim C4: the filename parser -/

/-- Claim C4, counterexample.  The claim says that whenever the header is
absent the filename remains unresolved and the parser raises no error; in the
code `rep.headers['Content-Disposition']` raises `KeyError` on an absent
header, so the call errors instead of yielding no name. -/
theorem c4_filename_parser_counterexample :
    parse_response_filename none = .error .keyError := rfl

/-- Claim C4, amended.  For a present header containing `filename=`, the
parser returns the remainder after the FIRST occurrence of the token (the
decomposition with the shortest prefix) with one surrounding pair of double
quotes stripped when present — headers containing the token several times are
covered, the later copies simply staying inside the returned remainder; for a
present header with no `filename=` token it yields no name and raises no
error; but an absent header raises `KeyError`, and a header whose first
`filename=` ends the value (empty remainder) raises `IndexError`. -/
theorem c4_filename_parser_amended :
    (parse_response_filename none = .error .keyError)
    ∧ (∀ s : List Char, (¬ ∃ pre rest, s = pre ++ filenameKey ++ rest) →
        parse_response_filename (some s) = .ok none)
    ∧ (∀ s pre rest : List Char, s = pre ++ filenameKey ++ rest →
        (∀ pre' rest', s = pre' ++ filenameKey ++ rest' → pre.length ≤ pre'.length) →
        rest ≠ [] →
        parse_response_filename (some s) = .ok (some (stripPair rest)))
    ∧ (∀ s pre : List Char, s = pre ++ filenameKey →
        (∀ pre' rest', s = pre' ++ filenameKey ++ rest' → pre.length ≤ pre'.length) →
        parse_response_filename (some s) = .error .indexError) := by
  refine ⟨rfl, ?_, ?_, ?_⟩
  · intro s h
    cases hf : findAfter filenameKey s with
    | none => simp only [parse_response_filename, hf]
    | some r =>
      obtain ⟨pre, hp⟩ := findAfter_some filenameKey s r hf
      exact absurd ⟨pre, r, hp⟩ h
  · intro s pre rest hs hmin hne
    have hfa := rest_eq_of_first filenameKey s pre rest hs hmin
    cases rest with
    | nil => exact absurd rfl hne
    | cons c cs => simp only [parse_response_filename, hfa]
  · intro s pre hs hmin
    have hs' : s = pre ++ filenameKey ++ [] := by rw [List.append_nil]; exact hs
    have hfa := rest_eq_of_first filenameKey s pre [] hs' hmin
    simp only [parse_response_filename, hfa]

/-- Claim C4 witness: the spec's own example header resolves to `report.pdf`
with the quotes stripped; a header containing the token twice resolves to the
remainder after the first occurrence (the second copy kept inside it); and a
header without the token yields no name. -/
theorem c4_filename_parser_witness :
    parse_response_filename (some ("attachment; filename=\"report.pdf\"".data))
        = .ok (some ("report.pdf".data))
    ∧ parse_response_filename (some ("filename=afilename=b".data))
        = .ok (some ("afilename=b".data))
    ∧ parse_response_filename (some ("attachment".data)) = .ok none := by
  refine ⟨?_, ?_, ?_⟩
  · have h := c4_filename_parser_amended.2.2.1
      ("attachment; filename=\"report.pdf\"".data) ("attachment; ".data)
      ("\"report.pdf\"".data) (by decide)
      (first_from_scan filenameKey _ ("attachment; ".data).length (by decide))
      (by decide)
    rw [h]
    decide
  · have h := c4_filename_parser_amended.2.2.1
      ("filename=afilename=b".data) [] ("afilename=b".data) (by decide)
      (fun pre' rest' _ => Nat.zero_le _)
      (by decide)
    rw [h]
    decide
  · exact c4_filename_parser_amended.2.1 ("attachment".data)
      (no_split_of_findAfter_none _ _ (by decide))

/-! ### Claim C9: the OneDrive share-link resolver -/

theorem get_onedrive_ok_decomp (u res : List Char)
    (h : get_onedrive_download_url u = .ok res) :
    ∃ id qp rest,
      u = "https://1drv.ms/u/s!".data ++ (id ++ ("?e=".data ++ (qp ++ rest)))
      ∧ id.length = 28 ∧ id.all odClass = true
      ∧ qp.length = 6 ∧ qp.all odClass = true
      ∧ res = odContentUrl id := by
  simp only [get_onedrive_download_url] at h
  split at h
  · cases h
  next r1 h1 =>
    split at h
    next hcond =>
      split at h
      · cases h
      next r3 h3 =>
        split at h
        next hcond2 =>
          cases h
          refine ⟨r1.take 28, r3.take 6, r3.drop 6, ?_, hcond.1, hcond.2, hcond2.1, hcond2.2, rfl⟩
          have hu := litChomp_some _ _ _ h1
          have h2 := litChomp_some _ _ _ h3
          conv_lhs => rw [hu, ← List.take_append_drop 28 r1, h2,
            ← List.take_append_drop 6 r3]
        · cases h
    · cases h

/-- Claim C9: for every share URL of the provider shape — the fixed head
`https://1drv.ms/u/s!`, a 28-character id over `[0-9a-zA-Z-_]`, then `?e=` and
a 6-character query value (re.match ignores anything after) — the resolver is
a pure computation returning
`https://api.onedrive.com/v1.0/shares/s!<id>/root/content` with exactly the
extracted id; every input not of that shape fails with the
`InvalidShareURLError` (`ValueError`). -/
theorem c9_onedrive_share_url :
    (∀ id qp rest : List Char,
      id.length = 28 → id.all odClass = true →
      qp.length = 6 → qp.all odClass = true →
      get_onedrive_download_url
          ("https://1drv.ms/u/s!".data ++ id ++ "?e=".data ++ qp ++ rest)
        = .ok (odContentUrl id))
    ∧ (∀ u : List Char,
        (¬ ∃ id qp rest,
            u = "https://1drv.ms/u/s!".data ++ id ++ "?e=".data ++ qp ++ rest
            ∧ id.length = 28 ∧ id.all odClass = true
            ∧ qp.length = 6 ∧ qp.all odClass = true) →
        get_onedrive_download_url u = .error ()) := by
  constructor
  · intro id qp rest hlen hall hqlen hqall
    have h1 : "https://1drv.ms/u/s!".data ++ id ++ "?e=".data ++ qp ++ rest
        = "https://1drv.ms/u/s!".data ++ (id ++ ("?e=".data ++ (qp ++ rest))) := by
      simp [List.append_assoc]
    rw [h1]
    simp only [get_onedrive_download_url, litChomp_self]
    rw [List.take_left' hlen, List.drop_left' hlen]
    simp only [hlen, hall, and_self, if_true, litChomp_self, List.take_left' hqlen,
      hqlen, hqall]
  · intro u hno
    cases hres : get_onedrive_download_url u with
    | error e => cases e; rfl
    | ok res =>
      obtain ⟨id, qp, rest, hu, hl, ha, hql, hqa, _⟩ := get_onedrive_ok_decomp u res hres
      refine absurd ⟨id, qp, rest, ?_, hl, ha, hql, hqa⟩ hno
      rw [hu]
      simp [List.append_assoc]

/-- Claim C9 witness: a concrete 28-character id and 6-character query value
resolve to the content-fetch URL carrying that exact id. -/
theorem c9_onedrive_share_url_witness :
    get_onedrive_download_url
        "https://1drv.ms/u/s!AbCdEfGhIjKlMnOpQrStUvWxYz12?e=AaBb12".data
      = .ok ("https://api.onedrive.com/v1.0/shares/s!AbCdEfGhIjKlMnOpQrStUvWxYz12/root/content".data) := by
  have h := c9_onedrive_share_url.1 ("AbCdEfGhIjKlMnOpQrStUvWxYz12".data)
    ("AaBb12".data) [] (by decide) (by decide) (by decide) (by decide)
  have heq : "https://1drv.ms/u/s!AbCdEfGhIjKlMnOpQrStUvWxYz12?e=AaBb12".data
      = "https://1drv.ms/u/s!".data ++ "AbCdEfGhIjKlMnOpQrStUvWxYz12".data
          ++ "?e=".data ++ "AaBb12".data ++ [] := by decide
  rw [heq, h]
  decide

/-! ### Claim C8: the GitHub private-release resolver -/

theorem gh_ok_decomp (url : List Char)
    (out : List Char × List Char × List Char × List Char × List Char)
    (h : download_github_private_assert_resolve url = .ok out) :
    ∃ w owner repo tag rest,
      anyNotNL w = true
      ∧ owner ≠ [] ∧ owner.all ghOwnerClass = true
      ∧ repo ≠ [] ∧ repo.all ghRepoClass = true
      ∧ tag ≠ [] ∧ tag.all ghTagClass = true
      ∧ url = "https://github".data ++ (w :: ("com/".data ++ (owner ++ ('/' ::
          (repo ++ ('/' :: ("releases/download/".data ++ (tag ++ ('/' :: rest)))))))))
      ∧ out = (owner, repo, tag, rest.takeWhile anyNotNL,
               ghQueryUrl owner repo tag) := by
  simp only [download_github_private_assert_resolve] at h
  split at h
  · cases h
  next r0 h1 =>
    split at h
    · cases h
    next w r1 =>
      split at h
      · cases h
      next hw =>
        split at h
        · cases h
        next r2 h2 =>
          split at h
          · cases h
          next ho1 =>
            split at h
            · cases h
            next c r4 h3 =>
              split at h
              next hc =>
                split at h
                · cases h
                next hr1 =>
                  split at h
                  · cases h
                  next r6 h5 =>
                    split at h
                    · cases h
                    next ht1 =>
                      split at h
                      · cases h
                      next c' r8 h7 =>
                        split at h
                        next hc' =>
                          cases h
                          subst hc
                          subst hc'
                          refine ⟨w, r2.takeWhile ghOwnerClass, r4.takeWhile ghRepoClass,
                            r6.takeWhile ghTagClass, r8, ?_, ho1, List.all_takeWhile,
                            hr1, List.all_takeWhile, ht1, List.all_takeWhile, ?_, rfl⟩
                          · simp [anyNotNL, hw]
                          · have e0 := litChomp_some _ _ _ h1
                            have e1 := litChomp_some _ _ _ h2
                            have e2 : r2 = r2.takeWhile ghOwnerClass ++ ('/' :: r4) := by
                              rw [← h3, List.takeWhile_append_dropWhile]
                            have e3 : r4 = r4.takeWhile ghRepoClass
                                ++ r4.dropWhile ghRepoClass :=
                              (List.takeWhile_append_dropWhile _ _).symm
                            have e4 := litChomp_some _ _ _ h5
                            have e5 : r6 = r6.takeWhile ghTagClass ++ ('/' :: r8) := by
                              rw [← h7, List.takeWhile_append_dropWhile]
                            conv_lhs => rw [e0, e1, e2, e3, e4, e5]
                            rfl
                        · cases h
              · cases h

/-- Claim C8, amended.  The code pins the pattern beyond the claim's generic
shape: the host is `github` + any single non-newline character + `com` (the
dot in the regex is an unescaped wildcard), the owner is nonempty
`[a-zA-Z0-9]+`, the repo nonempty `[a-z0-9A-Z-_]+`, the tag nonempty
`[0-9.]+`, and the file group is everything after the next `/` up to a
newline (`re.match` only anchors the start).  Exactly the URLs of that
pattern parse into the four segments and the release-metadata query URL
`https://api.github.com/repos/<owner>/<repo>/releases/tags/<tag>`; every
other URL trips the `assert` (the spec's MalformedURLError). -/
theorem c8_github_resolver_amended :
    (∀ url out, download_github_private_assert_resolve url = .ok out ↔
      ∃ w owner repo tag rest,
        anyNotNL w = true
        ∧ owner ≠ [] ∧ owner.all ghOwnerClass = true
        ∧ repo ≠ [] ∧ repo.all ghRepoClass = true
        ∧ tag ≠ [] ∧ tag.all ghTagClass = true
        ∧ url = "https://github".data ++ (w :: ("com/".data ++ (owner ++ ('/' ::
            (repo ++ ('/' :: ("releases/download/".data ++ (tag ++ ('/' :: rest)))))))))
        ∧ out = (owner, repo, tag, rest.takeWhile anyNotNL,
                 ghQueryUrl owner repo tag))
    ∧ (∀ url,
        (¬ ∃ (w : Char) (owner repo tag rest : List Char),
          anyNotNL w = true
          ∧ owner ≠ [] ∧ owner.all ghOwnerClass = true
          ∧ repo ≠ [] ∧ repo.all ghRepoClass = true
          ∧ tag ≠ [] ∧ tag.all ghTagClass = true
          ∧ url = "https://github".data ++ (w :: ("com/".data ++ (owner ++ ('/' ::
              (repo ++ ('/' :: ("releases/download/".data
                ++ (tag ++ ('/' :: rest)))))))))) →
        download_github_private_assert_resolve url = .error ()) := by
  have hbwd : ∀ (w : Char) (owner repo tag rest : List Char),
      anyNotNL w = true →
      owner ≠ [] → owner.all ghOwnerClass = true →
      repo ≠ [] → repo.all ghRepoClass = true →
      tag ≠ [] → tag.all ghTagClass = true →
      download_github_private_assert_resolve
          ("https://github".data ++ (w :: ("com/".data ++ (owner ++ ('/' ::
            (repo ++ ('/' :: ("releases/download/".data
              ++ (tag ++ ('/' :: rest))))))))))
        = .ok (owner, repo, tag, rest.takeWhile anyNotNL,
               ghQueryUrl owner repo tag) := by
    intro w owner repo tag rest hw ho1 ho2 hr1 hr2 ht1 ht2
    have hwn : ¬ (w = '\n') := by
      intro hc
      rw [hc] at hw
      exact absurd hw (by decide)
    obtain ⟨hto, hdo⟩ := takeWhile_munch ghOwnerClass owner '/'
      (repo ++ ('/' :: ("releases/download/".data ++ (tag ++ ('/' :: rest)))))
      ho2 (by decide)
    obtain ⟨htr, hdr⟩ := takeWhile_munch ghRepoClass repo '/'
      ("releases/download/".data ++ (tag ++ ('/' :: rest))) hr2 (by decide)
    obtain ⟨htt, hdt⟩ := takeWhile_munch ghTagClass tag '/' rest ht2 (by decide)
    have hstep : ∀ Z : List Char,
        litChomp ("/releases/download/".data)
            ('/' :: ("releases/download/".data ++ Z)) = some Z :=
      fun Z => litChomp_self ("/releases/download/".data) Z
    simp only [download_github_private_assert_resolve, litChomp_self, hwn,
      hto, hdo, ho1, htr, hdr, hr1, hstep, htt, hdt, ht1, ite_false, if_false,
      ite_true, if_true]
  constructor
  · intro url out
    constructor
    · exact gh_ok_decomp url out
    · rintro ⟨w, owner, repo, tag, rest, hw, ho1, ho2, hr1, hr2, ht1, ht2,
        hurl, hout⟩
      rw [hurl, hout]
      exact hbwd w owner repo tag rest hw ho1 ho2 hr1 hr2 ht1 ht2
  · intro url hno
    cases hres : download_github_private_assert_resolve url with
    | error e => cases e; rfl
    | ok out =>
      obtain ⟨w, owner, repo, tag, rest, hw, ho1, ho2, hr1, hr2, ht1, ht2,
        hurl, _⟩ := gh_ok_decomp url out hres
      exact absurd ⟨w, owner, repo, tag, rest, hw, ho1, ho2, hr1, hr2, ht1,
        ht2, hurl⟩ hno

/-- Claim C8, counterexample.  The URL
`https://github.com/o/r/releases/download/v1.0/a.zip` matches the claim's
fixed shape `https://<host>/<owner>/<repo>/releases/download/<tag>/<file>`
(all segments present and nonempty), yet the resolver raises instead of
parsing the four segments: the code's tag group admits only `[0-9.]`, so the
`v` is rejected.  This falsifies the claim's second half. -/
theorem c8_github_resolver_counterexample :
    matchesFixedShape ("https://github.com/o/r/releases/download/v1.0/a.zip".data) = true
    ∧ download_github_private_assert_resolve
        ("https://github.com/o/r/releases/download/v1.0/a.zip".data) = .error () := by
  constructor
  · decide
  · decide

/-- Claim C8 witness: the spec's well-formed example URL parses to
owner `o`, repo `r`, tag `1.0`, file `a.zip` and the query URL, and the
claim's malformed example `https://github.com/owner` fails. -/
theorem c8_github_resolver_witness :
    download_github_private_assert_resolve
        ("https://github.com/o/r/releases/download/1.0/a.zip".data)
      = .ok ("o".data, "r".data, "1.0".data, "a.zip".data,
             "https://api.github.com/repos/o/r/releases/tags/1.0".data)
    ∧ download_github_private_assert_resolve ("https://github.com/owner".data)
      = .error () := by
  constructor
  · exact (c8_github_resolver_amended.1
        ("https://github.com/o/r/releases/download/1.0/a.zip".data)
        ("o".data, "r".data, "1.0".data, "a.zip".data,
         "https://api.github.com/repos/o/r/releases/tags/1.0".data)).mpr
      ⟨'.', "o".data, "r".data, "1.0".data, "a.zip".data, by decide, by decide,
        by decide, by decide, by decide, by decide, by decide, by decide,
        by decide⟩
  · exact c8_github_resolver_amended.2 ("https://github.com/owner".data)
      (by
        rintro ⟨w, owner, repo, tag, rest, hw, ho1, ho2, hr1, hr2, ht1, ht2,
          hurl⟩
        have hlen := congrArg List.length hurl
        simp [List.length_append] at hlen
        omega)

/-! ### Claims C6 and C7: deterministic entry metadata -/

/-- Claim C6: the stored permission word of a deterministic entry is decided
by the single executability predicate alone — `0o555` (read+execute for all
classes) for an executable source, `0o444` (read-only for all classes)
otherwise — OR-ed with the regular-file type bits and shifted left 16 bits
into the external attributes, and is unchanged by the file's actual
finer-grained mode bits, its contents, or its timestamps. -/
theorem c6_permission_mapping :
    ∀ (f : SrcFile) (zip_path : String),
      ((zip_add_file_entry zip_path f).externalAttr
          = if f.exec then (S_IFREG ||| 0o555) <<< 16 else (S_IFREG ||| 0o444) <<< 16)
      ∧ (∀ (g : SrcFile) (q : String), g.exec = f.exec →
          (zip_add_file_entry q g).externalAttr
            = (zip_add_file_entry zip_path f).externalAttr) := by
  intro f zip_path
  constructor
  · cases hx : f.exec <;> simp [zip_add_file_entry, mkDetEntry, hx]
  · intro g q hg
    simp [zip_add_file_entry, mkDetEntry, hg]

/-- Claim C6 witness: two files differing in everything but the executable
bit store the two fixed permission words; equal executability yields equal
stored attributes whatever the mode bits. -/
theorem c6_permission_mapping_witness :
    (zip_add_file_entry "a" ⟨[1], true, true, 0o755, 5⟩).externalAttr = 0o100555 <<< 16
    ∧ (zip_add_file_entry "b" ⟨[1], false, true, 0o644, 5⟩).externalAttr = 0o100444 <<< 16
    ∧ (zip_add_file_entry "c" ⟨[2], true, true, 0o700, 9⟩).externalAttr
        = (zip_add_file_entry "a" ⟨[1], true, true, 0o755, 5⟩).externalAttr := by
  refine ⟨?_, ?_, ?_⟩
  · rw [(c6_permission_mapping ⟨[1], true, true, 0o755, 5⟩ "a").1]
    decide
  · rw [(c6_permission_mapping ⟨[1], false, true, 0o644, 5⟩ "b").1]
    decide
  · exact (c6_permission_mapping ⟨[1], true, true, 0o755, 5⟩ "a").2
      ⟨[2], true, true, 0o700, 9⟩ "c" rfl

/-- Claim C7: every deterministic entry stores the fixed timestamp
2019-01-01T00:00:00 whatever the source file's real mtime, and its bytes are
compressed with the DEFLATED method at the maximum level 9 — the same
settings for every entry. -/
theorem c7_fixed_timestamp_compression :
    ∀ (f : SrcFile) (zip_path : String),
      (zip_add_file_entry zip_path f).dateTime = (2019, 1, 1, 0, 0, 0)
      ∧ (zip_add_file_entry zip_path f).compressType = ZIP_DEFLATED
      ∧ (zip_add_file_entry zip_path f).compressLevel = some 9
      ∧ ∀ (g : SrcFile) (q : String),
          (zip_add_file_entry q g).dateTime = (zip_add_file_entry zip_path f).dateTime
          ∧ (zip_add_file_entry q g).compressType
              = (zip_add_file_entry zip_path f).compressType
          ∧ (zip_add_file_entry q g).compressLevel
              = (zip_add_file_entry zip_path f).compressLevel :=
  fun _ _ => ⟨rfl, rfl, rfl, fun _ _ => ⟨rfl, rfl, rfl⟩⟩

/-! ### Claims C10 and C5: zip_files entry names and failure behavior -/

theorem zip_add_file_disk_name (disk : Disk) (p : PathA) (entry : ZipEntry)
    (h : zip_add_file_disk disk p = .ok entry) : entry.name = baseName p := by
  simp only [zip_add_file_disk] at h
  split at h
  · cases h
  · split at h
    · cases h
      rfl
    · cases h

theorem zip_write_disk_name (disk : Disk) (p : PathA) (entry : ZipEntry)
    (h : zip_write_disk disk p = .ok entry) : entry.name = baseName p := by
  simp only [zip_write_disk] at h
  split at h
  · cases h
  · split at h
    · cases h
      rfl
    · cases h

theorem zip_files_go_ok_names (disk : Disk) (det : Bool) :
    ∀ (fps : List PathA) (acc : List ZipEntry),
      (zip_files_go disk det fps acc).1 = none →
      (zip_files_go disk det fps acc).2.map ZipEntry.name
        = acc.map ZipEntry.name ++ fps.map baseName := by
  intro fps
  induction fps with
  | nil =>
    intro acc _
    simp [zip_files_go]
  | cons p rest ih =>
    intro acc h
    rw [zip_files_go] at h ⊢
    cases hstep : (if det then zip_add_file_disk disk p else zip_write_disk disk p) with
    | error e =>
      rw [hstep] at h
      exact Option.noConfusion h
    | ok entry =>
      rw [hstep] at h
      have h' : (zip_files_go disk det rest (acc ++ [entry])).1 = none := h
      have hname : entry.name = baseName p := by
        by_cases hd : det
        · rw [if_pos hd] at hstep
          exact zip_add_file_disk_name disk p entry hstep
        · rw [if_neg hd] at hstep
          exact zip_write_disk_name disk p entry hstep
      show (zip_files_go disk det rest (acc ++ [entry])).2.map ZipEntry.name
          = acc.map ZipEntry.name ++ (p :: rest).map baseName
      rw [ih (acc ++ [entry]) h']
      simp [hname]

/-- Claim C10: in both modes every `zip_files` entry is stored under the
basename of its source path alone (all leading directory components
discarded), so two input paths sharing a basename make the archive's entry
name list contain duplicates. -/
theorem c10_basename_entries :
    ∀ (disk : Disk) (fps : List PathA) (det : Bool),
      (zip_files disk fps det).1 = none →
      ((zip_files_go disk det fps []).2.map ZipEntry.name = fps.map baseName
       ∧ ∀ p q, p ∈ fps → q ∈ fps → p ≠ q → baseName p = baseName q →
           ¬ ((zip_files_go disk det fps []).2.map ZipEntry.name).Nodup) := by
  intro disk fps det h
  have h1 : (zip_files_go disk det fps []).1 = none := by
    rw [zip_files] at h
    cases hgo : zip_files_go disk det fps [] with
    | mk o es =>
      cases o with
      | none => rfl
      | some e =>
        rw [hgo] at h
        cases h
  have hnames : (zip_files_go disk det fps []).2.map ZipEntry.name
      = fps.map baseName := by
    simpa using zip_files_go_ok_names disk det fps [] h1
  refine ⟨hnames, ?_⟩
  intro p q hp hq hne hbase hnodup
  rw [hnames] at hnodup
  exact hne (List.inj_on_of_nodup_map hnodup hp hq hbase)

/-- Claim C10 witness: archiving `/a/x` and `/b/x` (deterministic mode)
succeeds, stores both entries under the bare name `x`, and the entry name
list has duplicates. -/
theorem c10_basename_entries_witness :
    ((zip_files_go [(["a", "x"], ⟨[1], false, true, 0, 0⟩), (["b", "x"], ⟨[2], false, true, 0, 0⟩)]
        true [["a", "x"], ["b", "x"]] []).2.map ZipEntry.name = ["x", "x"])
    ∧ ¬ ((zip_files_go [(["a", "x"], ⟨[1], false, true, 0, 0⟩), (["b", "x"], ⟨[2], false, true, 0, 0⟩)]
        true [["a", "x"], ["b", "x"]] []).2.map ZipEntry.name).Nodup := by
  have h := c10_basename_entries
    [(["a", "x"], ⟨[1], false, true, 0, 0⟩), (["b", "x"], ⟨[2], false, true, 0, 0⟩)]
    [["a", "x"], ["b", "x"]] true (by decide)
  constructor
  · rw [h.1]
    decide
  · exact h.2 ["a", "x"] ["b", "x"] (by decide) (by decide) (by decide) (by decide)

theorem zip_files_go_error_prefix (disk : Disk) :
    ∀ (pre : List PathA) (p : PathA) (post : List PathA) (acc : List ZipEntry)
      (err : FileAccessError),
      (∀ q ∈ pre, ∃ f, lookupDisk disk q = some f ∧ f.readable = true) →
      zip_add_file_disk disk p = .error err →
      zip_files_go disk true (pre ++ p :: post) acc
        = (some err, acc ++ detEntries disk pre) := by
  intro pre
  induction pre with
  | nil =>
    intro p post acc err _ hp
    rw [List.nil_append, zip_files_go]
    simp [hp, detEntries]
  | cons q pre' ih =>
    intro p post acc err hpre hp
    obtain ⟨f, hf, hread⟩ := hpre q (List.mem_cons_self q pre')
    have hstep : zip_add_file_disk disk q = .ok (zip_add_file_entry (baseName q) f) := by
      simp [zip_add_file_disk, hf, hread]
    have hdet : detEntries disk (q :: pre')
        = zip_add_file_entry (baseName q) f :: detEntries disk pre' := by
      simp [detEntries, hstep]
    rw [List.cons_append, zip_files_go, hdet]
    simp only [if_true, ite_true, hstep]
    rw [ih p post (acc ++ [zip_add_file_entry (baseName q) f]) err
      (fun r hr => hpre r (List.mem_cons_of_mem q hr)) hp]
    simp

/-- Claim C5, counterexample.  `ZipFile(dst, "w")` creates (or truncates) the
destination file before any source is read; when the only source is missing
the call fails with the FileAccessError, but a zero-byte file remains at the
destination (second component `some []`), falsifying "no partial archive
file on disk at the destination path". -/
theorem c5_no_partial_archive_counterexample :
    (zip_files [] [["tmp", "missing.txt"]] true).1
        = some (.fileNotFound ["tmp", "missing.txt"])
    ∧ (zip_files [] [["tmp", "missing.txt"]] true).2 = some [] := by
  constructor
  · decide
  · decide

/-- Claim C5, amended: a missing source (`FileNotFoundError` from `os.stat`)
or an unreadable one (`PermissionError` from `open`) makes deterministic
`zip_files` fail with the corresponding FileAccessError, but the archive file
opened at the destination is left behind, holding the local records of the
entries written before the failure — zero bytes when the first source already
fails. -/
theorem c5_no_partial_archive_amended :
    ∀ (disk : Disk) (pre : List PathA) (p : PathA) (post : List PathA),
      (∀ q ∈ pre, ∃ f, lookupDisk disk q = some f ∧ f.readable = true) →
      ((lookupDisk disk p = none →
        (zip_files disk (pre ++ p :: post) true).1 = some (.fileNotFound p)
        ∧ (zip_files disk (pre ++ p :: post) true).2
            = some (zipLocalBytes (detEntries disk pre)))
       ∧ (∀ f, lookupDisk disk p = some f → f.readable = false →
        (zip_files disk (pre ++ p :: post) true).1 = some (.permissionDenied p)
        ∧ (zip_files disk (pre ++ p :: post) true).2
            = some (zipLocalBytes (detEntries disk pre)))) := by
  intro disk pre p post hpre
  constructor
  · intro hp
    have hstep : zip_add_file_disk disk p = .error (.fileNotFound p) := by
      simp [zip_add_file_disk, hp]
    have hgo := zip_files_go_error_prefix disk pre p post [] _ hpre hstep
    rw [zip_files, hgo]
    exact ⟨rfl, by simp⟩
  · intro f hp hr
    have hstep : zip_add_file_disk disk p = .error (.permissionDenied p) := by
      simp [zip_add_file_disk, hp, hr]
    have hgo := zip_files_go_error_prefix disk pre p post [] _ hpre hstep
    rw [zip_files, hgo]
    exact ⟨rfl, by simp⟩

/-- Claim C5 witness: with `/d/a.txt` present and `/d/gone` missing, the call
fails naming the missing path and the destination file holds exactly the one
record written before the failure; with `/d/locked` present but unreadable,
it fails with the permission error and the same partial file remains. -/
theorem c5_no_partial_archive_amended_witness :
    ((zip_files [(["d", "a.txt"], ⟨[7], false, true, 0, 3⟩)]
        [["d", "a.txt"], ["d", "gone"]] true).1 = some (.fileNotFound ["d", "gone"])
     ∧ (zip_files [(["d", "a.txt"], ⟨[7], false, true, 0, 3⟩)]
        [["d", "a.txt"], ["d", "gone"]] true).2
       = some (zipLocalBytes (detEntries [(["d", "a.txt"], ⟨[7], false, true, 0, 3⟩)]
           [["d", "a.txt"]])))
    ∧ ((zip_files [(["d", "a.txt"], ⟨[7], false, true, 0, 3⟩),
          (["d", "locked"], ⟨[9], false, false, 0, 4⟩)]
        [["d", "a.txt"], ["d", "locked"]] true).1
          = some (.permissionDenied ["d", "locked"])
     ∧ (zip_files [(["d", "a.txt"], ⟨[7], false, true, 0, 3⟩),
          (["d", "locked"], ⟨[9], false, false, 0, 4⟩)]
        [["d", "a.txt"], ["d", "locked"]] true).2
       = some (zipLocalBytes (detEntries [(["d", "a.txt"], ⟨[7], false, true, 0, 3⟩),
           (["d", "locked"], ⟨[9], false, false, 0, 4⟩)] [["d", "a.txt"]]))) := by
  constructor
  · exact (c5_no_partial_archive_amended
      [(["d", "a.txt"], ⟨[7], false, true, 0, 3⟩)] [["d", "a.txt"]] ["d", "gone"] []
      (by
        intro q hq
        have hq' : q = ["d", "a.txt"] := by simpa using hq
        subst hq'
        exact ⟨⟨[7], false, true, 0, 3⟩, rfl, rfl⟩)).1 (by decide)
  · exact (c5_no_partial_archive_amended
      [(["d", "a.txt"], ⟨[7], false, true, 0, 3⟩),
        (["d", "locked"], ⟨[9], false, false, 0, 4⟩)]
      [["d", "a.txt"]] ["d", "locked"] []
      (by
        intro q hq
        have hq' : q = ["d", "a.txt"] := by simpa using hq
        subst hq'
        exact ⟨⟨[7], false, true, 0, 3⟩, rfl, rfl⟩)).2
      ⟨[9], false, false, 0, 4⟩ (by decide) rfl

/-! ### Claims C1 and C3: the downloader's temporary-file handling -/

/-- Claim C1: whenever `download_file` fails — the streaming request raised
after writing any number of bytes to the temporary file, or filename
resolution raised (absent header, empty remainder after the token) — the
`finally` block closes and deletes the temporary file before the error
propagates, and the destination directory is exactly as before the call:
nothing published at any final path, no partial or zero-byte file, no
residual temporary file. -/
theorem c1_download_cleanup_on_failure :
    ∀ (fs0 : Fs) (dstIsDir : Bool) (dstName tmp : String) (net : NetOutcome)
      (e : DLError),
      fsLookup fs0 tmp = none →
      (download_file fs0 dstIsDir dstName tmp net).result = .error e →
      (download_file fs0 dstIsDir dstName tmp net).tempClosed = true
      ∧ ∀ p, fsLookup (download_file fs0 dstIsDir dstName tmp net).fs p
          = fsLookup fs0 p := by
  intro fs0 dstIsDir dstName tmp net e htmp hres
  have herase : ∀ (v w : List Nat) (p : String),
      fsLookup (fsErase (fsInsert (fsInsert fs0 tmp v) tmp w) tmp) p
        = fsLookup fs0 p := by
    intro v w p
    rw [fsLookup_fsErase]
    by_cases hp : p = tmp
    · rw [if_pos hp, hp, htmp]
    · rw [if_neg hp, fsLookup_fsInsert, if_neg hp, fsLookup_fsInsert, if_neg hp]
  cases net with
  | fail written =>
    exact ⟨rfl, fun p => herase [] written p⟩
  | ok body hdr =>
    cases dstIsDir with
    | false => simp [download_file] at hres
    | true =>
      cases hp : parse_response_filename hdr with
      | error pe =>
        refine ⟨?_, fun p => ?_⟩
        · simp [download_file, hp]
        · have hfs : (download_file fs0 true dstName tmp (NetOutcome.ok body hdr)).fs
              = fsErase (fsInsert (fsInsert fs0 tmp []) tmp body) tmp := by
            simp [download_file, hp]
          rw [hfs]
          exact herase [] body p
      | ok onm =>
        cases onm with
        | none => simp [download_file, hp] at hres
        | some nm => simp [download_file, hp] at hres

/-- Claim C1 witness: with an empty destination directory and a mid-stream
transport failure after two bytes, the call errors, the temporary handle is
closed, and the directory is unchanged (neither destination name nor
temporary name present afterwards). -/
theorem c1_download_cleanup_on_failure_witness :
    (download_file [] false "dst.bin" "tmp_x" (.fail [1, 2])).tempClosed = true
    ∧ fsLookup (download_file [] false "dst.bin" "tmp_x" (.fail [1, 2])).fs "dst.bin"
        = fsLookup ([] : Fs) "dst.bin"
    ∧ fsLookup (download_file [] false "dst.bin" "tmp_x" (.fail [1, 2])).fs "tmp_x"
        = fsLookup ([] : Fs) "tmp_x" := by
  have h := c1_download_cleanup_on_failure [] false "dst.bin" "tmp_x" (.fail [1, 2])
    .networkError (by decide) (by decide)
  exact ⟨h.1, h.2 "dst.bin", h.2 "tmp_x"⟩

/-- Claim C3, code behavior at the failing input: destination an existing
directory, response body `[1, 2, 3]`, header value `attachment` (present but
with no `filename=` token, so no filename resolves).  The call does not fail
and publishes nothing — but the `finally` block then deletes the temporary
file, so the downloaded bytes are discarded rather than left behind at the
temporary name as the claim (and the code's own inline comment "use temp
file name") describes: the resulting directory is empty. -/
theorem c3_orphan_temp_divergence :
    download_file [] true "ignored" "tmp_a1b2" (.ok [1, 2, 3] (some ("attachment".data)))
      = { result := .ok .dirNoName, fs := [], tempClosed := true } := by
  rfl

/-! ### Claim C2: deterministic-mode archiving is a function of file content -/

theorem nodeSize_pos : ∀ t : FSNode, 1 ≤ nodeSize t := by
  intro t
  cases t with
  | file f => exact Nat.le_refl 1
  | dir ch mt =>
    rw [nodeSize]
    omega

theorem mem_insertPair {α : Type} (x : String × α) :
    ∀ (l : List (String × α)) (y : String × α), y ∈ insertPair x l → y = x ∨ y ∈ l := by
  intro l
  induction l with
  | nil =>
    intro y hy
    rw [insertPair] at hy
    simp at hy
    exact Or.inl hy
  | cons z zs ih =>
    intro y hy
    rw [insertPair] at hy
    by_cases hc : strLt x.1 z.1
    · rw [if_pos hc] at hy
      rcases List.mem_cons.mp hy with h | h
      · exact Or.inl h
      · exact Or.inr h
    · rw [if_neg hc] at hy
      rcases List.mem_cons.mp hy with h | h
      · exact Or.inr (List.mem_cons.mpr (Or.inl h))
      · rcases ih y h with h' | h'
        · exact Or.inl h'
        · exact Or.inr (List.mem_cons.mpr (Or.inr h'))

theorem mem_sortPairs {α : Type} :
    ∀ (l : List (String × α)) (y : String × α), y ∈ sortPairs l → y ∈ l := by
  intro l
  induction l with
  | nil => intro y hy; simp [sortPairs] at hy
  | cons z zs ih =>
    intro y hy
    rw [sortPairs] at hy
    rcases mem_insertPair z (sortPairs zs) y hy with h | h
    · exact List.mem_cons.mpr (Or.inl h)
    · exact List.mem_cons.mpr (Or.inr (ih y h))

theorem mem_toPairs_nodeSize :
    ∀ (ch : FSListing) (p : String × FSNode), p ∈ toPairs ch →
      nodeSize p.2 ≤ listingSize ch
  | .nil, p, hp => by simp [toPairs] at hp
  | .cons n t rest, p, hp => by
    rw [toPairs] at hp
    rw [listingSize]
    rcases List.mem_cons.mp hp with h | h
    · subst h
      show nodeSize t ≤ nodeSize t + listingSize rest
      omega
    · have := mem_toPairs_nodeSize rest p h
      omega

theorem insertPair_map {α β : Type} (g : String × α → β) (x : String × α) :
    ∀ l : List (String × α),
      insertPair (x.1, g x) (l.map fun q => (q.1, g q))
        = (insertPair x l).map fun q => (q.1, g q) := by
  intro l
  induction l with
  | nil => rfl
  | cons z zs ih =>
    rw [List.map_cons, insertPair, insertPair]
    by_cases hc : strLt x.1 z.1
    · rw [if_pos hc, if_pos hc]
      rfl
    · rw [if_neg hc, if_neg hc, List.map_cons, ih]

theorem sortPairs_map {α β : Type} (g : String × α → β) :
    ∀ l : List (String × α),
      sortPairs (l.map fun q => (q.1, g q)) = (sortPairs l).map fun q => (q.1, g q) := by
  intro l
  induction l with
  | nil => rfl
  | cons z zs ih =>
    rw [List.map_cons, sortPairs, sortPairs, ih, insertPair_map]

theorem canonGo_congr :
    ∀ (fuel1 : Nat), ∀ (fuel2 : Nat) (t : FSNode),
      nodeSize t ≤ fuel1 → nodeSize t ≤ fuel2 → canonGo fuel1 t = canonGo fuel2 t := by
  intro fuel1
  induction fuel1 with
  | zero =>
    intro fuel2 t h1 _
    exact absurd (Nat.le_trans (nodeSize_pos t) h1) (by omega)
  | succ m ih =>
    intro fuel2 t h1 h2
    cases fuel2 with
    | zero => exact absurd (Nat.le_trans (nodeSize_pos t) h2) (by omega)
    | succ n =>
      cases t with
      | file f => rfl
      | dir ch mt =>
        rw [canonGo, canonGo]
        have hch : listingSize ch ≤ m := by
          rw [nodeSize] at h1
          omega
        have hch2 : listingSize ch ≤ n := by
          rw [nodeSize] at h2
          omega
        congr 1
        congr 1
        apply List.map_congr_left
        intro p hp
        have hps := mem_toPairs_nodeSize ch p hp
        have := ih n p.2 (Nat.le_trans hps hch) (Nat.le_trans hps hch2)
        rw [this]

theorem canonNode_file (f : SrcFile) :
    canonNode (.file f) = .file f.content f.exec f.readable := rfl

theorem canonNode_dir (ch : FSListing) (mt : Nat) :
    canonNode (.dir ch mt) = .dir (canonChildren ch) := by
  rw [canonNode, canonChildren]
  have h1 : nodeSize (FSNode.dir ch mt) = listingSize ch + 1 := by
    rw [nodeSize]
    omega
  rw [h1, canonGo]
  congr 1
  congr 1
  apply List.map_congr_left
  intro p hp
  have hps := mem_toPairs_nodeSize ch p hp
  rw [canonGo_congr (listingSize ch) (nodeSize p.2) p.2 hps (Nat.le_refl _)]
  rfl

theorem pairsSize_toPairs : ∀ ch : FSListing, pairsSize (toPairs ch) = listingSize ch
  | .nil => rfl
  | .cons n t rest => by
    rw [toPairs, pairsSize, listingSize, pairsSize_toPairs rest]

theorem pairsSize_insertPair (x : String × FSNode) :
    ∀ l, pairsSize (insertPair x l) = nodeSize x.2 + pairsSize l := by
  intro l
  induction l with
  | nil =>
    obtain ⟨n, t⟩ := x
    rfl
  | cons y ys ih =>
    obtain ⟨m, u⟩ := y
    rw [insertPair]
    by_cases hc : strLt x.1 m
    · rw [if_pos hc]
      obtain ⟨n, t⟩ := x
      rfl
    · rw [if_neg hc, pairsSize, ih, pairsSize]
      omega

theorem pairsSize_sortPairs : ∀ l, pairsSize (sortPairs l) = pairsSize l := by
  intro l
  induction l with
  | nil => rfl
  | cons x xs ih =>
    obtain ⟨n, t⟩ := x
    rw [sortPairs, pairsSize_insertPair, ih, pairsSize]

theorem walkList_congr :
    ∀ (fuel1 : Nat), ∀ (fuel2 : Nat) (l : List (String × FSNode)) (path : PathA)
      (zip_path : String),
      pairsSize l < fuel1 → pairsSize l < fuel2 →
      walkList fuel1 l path zip_path = walkList fuel2 l path zip_path := by
  intro fuel1
  induction fuel1 with
  | zero =>
    intro fuel2 l path zp h1 _
    exact absurd h1 (by omega)
  | succ m ih =>
    intro fuel2 l path zp h1 h2
    cases fuel2 with
    | zero => exact absurd h2 (by omega)
    | succ n =>
      cases l with
      | nil => rfl
      | cons x rest =>
        obtain ⟨item, node⟩ := x
        rw [pairsSize] at h1 h2
        cases node with
        | file f =>
          have hnf : nodeSize (FSNode.file f) = 1 := rfl
          rw [walkList, walkList]
          rw [ih n rest path zp (by omega) (by omega)]
        | dir ch mt =>
          have hnd : nodeSize (FSNode.dir ch mt) = 1 + listingSize ch := rfl
          have hin : pairsSize (sortPairs (toPairs ch)) = listingSize ch := by
            rw [pairsSize_sortPairs, pairsSize_toPairs]
          rw [walkList, walkList]
          rw [ih n (sortPairs (toPairs ch)) (path ++ [item]) (zp ++ "/" ++ item)
            (by omega) (by omega)]
          rw [ih n rest path zp (by omega) (by omega)]

theorem canonChildren_eq_map (ch : FSListing) :
    canonChildren ch
      = (sortPairs (toPairs ch)).map fun p => (p.1, canonNode p.2) := by
  rw [canonChildren]
  exact sortPairs_map (fun p => canonNode p.2) (toPairs ch)

theorem walkList_eq_cwalkList :
    ∀ (fuel : Nat) (l : List (String × FSNode)) (path : PathA) (zip_path : String),
      pairsSize l < fuel →
      walkList fuel l path zip_path
        = cwalkList fuel (l.map fun p => (p.1, canonNode p.2)) path zip_path := by
  intro fuel
  induction fuel with
  | zero =>
    intro l path zp h
    exact absurd h (by omega)
  | succ m ih =>
    intro l path zp h
    cases l with
    | nil => rfl
    | cons x rest =>
      obtain ⟨item, node⟩ := x
      rw [pairsSize] at h
      rw [List.map_cons]
      cases node with
      | file f =>
        have hnf : nodeSize (FSNode.file f) = 1 := rfl
        simp only [canonNode_file]
        rw [walkList, cwalkList]
        rw [ih rest path zp (by omega)]
        rfl
      | dir ch mt =>
        have hnd : nodeSize (FSNode.dir ch mt) = 1 + listingSize ch := rfl
        have hin : pairsSize (sortPairs (toPairs ch)) = listingSize ch := by
          rw [pairsSize_sortPairs, pairsSize_toPairs]
        simp only [canonNode_dir]
        rw [walkList, cwalkList]
        rw [ih (sortPairs (toPairs ch)) (path ++ [item]) (zp ++ "/" ++ item)
          (by omega)]
        rw [ih rest path zp (by omega)]
        rw [← canonChildren_eq_map]

theorem zip_add_file_disk_equiv (disk₁ disk₂ : Disk) (p : PathA)
    (h : srcOptEquiv (lookupDisk disk₁ p) (lookupDisk disk₂ p)) :
    zip_add_file_disk disk₁ p = zip_add_file_disk disk₂ p := by
  unfold zip_add_file_disk
  cases h1 : lookupDisk disk₁ p with
  | none =>
    cases h2 : lookupDisk disk₂ p with
    | none => rfl
    | some g =>
      rw [h1, h2] at h
      exact absurd h (fun hc => hc)
  | some f =>
    cases h2 : lookupDisk disk₂ p with
    | none =>
      rw [h1, h2] at h
      exact absurd h (fun hc => hc)
    | some g =>
      rw [h1, h2] at h
      have h' : srcEquiv f g := h
      show (if f.readable = true then Except.ok (zip_add_file_entry (baseName p) f)
            else Except.error (FileAccessError.permissionDenied p))
          = (if g.readable = true then Except.ok (zip_add_file_entry (baseName p) g)
            else Except.error (FileAccessError.permissionDenied p))
      rw [h'.2.2]
      cases hr : g.readable with
      | false => rfl
      | true =>
        rw [if_pos rfl, if_pos rfl]
        rw [zip_add_file_entry, zip_add_file_entry, h'.1, h'.2.1]

theorem zip_files_go_equiv (disk₁ disk₂ : Disk) :
    ∀ (fps : List PathA) (acc : List ZipEntry),
      (∀ p ∈ fps, srcOptEquiv (lookupDisk disk₁ p) (lookupDisk disk₂ p)) →
      zip_files_go disk₁ true fps acc = zip_files_go disk₂ true fps acc := by
  intro fps
  induction fps with
  | nil => intro acc _; rfl
  | cons p rest ih =>
    intro acc h
    rw [zip_files_go, zip_files_go]
    rw [if_pos rfl, zip_add_file_disk_equiv disk₁ disk₂ p (h p (List.mem_cons_self p rest))]
    cases hstep : zip_add_file_disk disk₂ p with
    | error e => rfl
    | ok entry => exact ih (acc ++ [entry]) (fun q hq => h q (List.mem_cons_of_mem p hq))

/-- Claim C2: deterministic-mode archive output is a function of file
contents, executable bits and readability alone.  For the sorted-order
directory walker, any two listings with the same canonical content (same
files, same bytes, same executable bits, same readability — whatever their
mtimes and listing order) produce the same outcome: the same entry sequence
(hence byte-identical container output) on success, and the same
`PermissionError` on the same path when a file is unreadable; and two
`zip_files(…, deterministic=True)` runs over disks holding equivalent files
at the given paths produce identical results, bytes included. -/
theorem c2_deterministic_archiving :
    (∀ (ch₁ ch₂ : FSListing) (path : PathA) (zip_path : String),
      canonChildren ch₁ = canonChildren ch₂ →
      zip_add_directory ch₁ path zip_path = zip_add_directory ch₂ path zip_path
      ∧ (zip_add_directory ch₁ path zip_path).map zipOutputBytes
          = (zip_add_directory ch₂ path zip_path).map zipOutputBytes)
    ∧ (∀ (disk₁ disk₂ : Disk) (fps : List PathA),
        (∀ p ∈ fps, srcOptEquiv (lookupDisk disk₁ p) (lookupDisk disk₂ p)) →
        zip_files disk₁ fps true = zip_files disk₂ fps true) := by
  constructor
  · intro ch₁ ch₂ path zp hc
    have key : zip_add_directory ch₁ path zp = zip_add_directory ch₂ path zp := by
      rw [zip_add_directory, zip_add_directory]
      have hs₁ : pairsSize (sortPairs (toPairs ch₁)) = listingSize ch₁ := by
        rw [pairsSize_sortPairs, pairsSize_toPairs]
      have hs₂ : pairsSize (sortPairs (toPairs ch₂)) = listingSize ch₂ := by
        rw [pairsSize_sortPairs, pairsSize_toPairs]
      have hF1 : pairsSize (sortPairs (toPairs ch₁))
          < max (listingSize ch₁ + 1) (listingSize ch₂ + 1) := by
        have := Nat.le_max_left (listingSize ch₁ + 1) (listingSize ch₂ + 1)
        omega
      have hF2 : pairsSize (sortPairs (toPairs ch₂))
          < max (listingSize ch₁ + 1) (listingSize ch₂ + 1) := by
        have := Nat.le_max_right (listingSize ch₁ + 1) (listingSize ch₂ + 1)
        omega
      rw [walkList_congr (listingSize ch₁ + 1)
        (max (listingSize ch₁ + 1) (listingSize ch₂ + 1))
        (sortPairs (toPairs ch₁)) path zp (by omega) hF1]
      rw [walkList_congr (listingSize ch₂ + 1)
        (max (listingSize ch₁ + 1) (listingSize ch₂ + 1))
        (sortPairs (toPairs ch₂)) path zp (by omega) hF2]
      rw [walkList_eq_cwalkList _ (sortPairs (toPairs ch₁)) path zp hF1]
      rw [walkList_eq_cwalkList _ (sortPairs (toPairs ch₂)) path zp hF2]
      rw [← canonChildren_eq_map, ← canonChildren_eq_map, hc]
    exact ⟨key, by rw [key]⟩
  · intro disk₁ disk₂ fps h
    rw [zip_files, zip_files, zip_files_go_equiv disk₁ disk₂ fps [] h]

/-- Claim C2 witness: two trees holding the same files (same bytes, same
executable bits, all readable) with different mtimes and different listing
orders archive to the same entries, and two one-file disks differing only in
mode bits and mtime give identical `zip_files` output. -/
theorem c2_deterministic_archiving_witness :
    zip_add_directory
        (.cons "b" (.file ⟨[2], true, true, 0o755, 11⟩)
          (.cons "a" (.dir (.cons "c" (.file ⟨[3], false, true, 0o644, 12⟩) .nil) 5) .nil))
        ["base"] "root"
      = zip_add_directory
        (.cons "a" (.dir (.cons "c" (.file ⟨[3], false, true, 0o600, 99⟩) .nil) 6)
          (.cons "b" (.file ⟨[2], true, true, 0o700, 42⟩) .nil))
        ["base"] "root"
    ∧ zip_files [(["x"], ⟨[1], false, true, 0o644, 1⟩)] [["x"]] true
        = zip_files [(["x"], ⟨[1], false, true, 0o600, 2⟩)] [["x"]] true := by
  constructor
  · exact (c2_deterministic_archiving.1
      (.cons "b" (.file ⟨[2], true, true, 0o755, 11⟩)
        (.cons "a" (.dir (.cons "c" (.file ⟨[3], false, true, 0o644, 12⟩) .nil) 5) .nil))
      (.cons "a" (.dir (.cons "c" (.file ⟨[3], false, true, 0o600, 99⟩) .nil) 6)
        (.cons "b" (.file ⟨[2], true, true, 0o700, 42⟩) .nil))
      ["base"] "root" (by rfl)).1
  · exact c2_deterministic_archiving.2
      [(["x"], ⟨[1], false, true, 0o644, 1⟩)] [(["x"], ⟨[1], false, true, 0o600, 2⟩)]
      [["x"]]
      (by
        intro p hp
        have hp' : p = ["x"] := by simpa using hp
        subst hp'
        exact ⟨rfl, rfl, rfl⟩)

end HHutil
